import Mathlib

/-!
Verification of the video-morse-decode signal-processing core.

This file is a shallow embedding, in Lean 4, of the algorithmic portion of
`video-morse-decode.cpp`: the brightness histogram and mean (the
`calculateHistogram` member), run-length state segmentation
(`processStateChanges`), gaussian-smoothed duration-histogram peak detection
(`get_local_maximums`), threshold derivation and morse token assembly
(`processSignals`), and the repeated-substitution symbol decoder
(`decodeMorse` built on `Util::replace` / `Util::replace_all`).

Modelling conventions:
* C++ `unsigned` / non-negative `int` quantities are `Nat`; all divisions in
  the source act on non-negative operands, where C++ truncating division
  agrees with `Nat` division.
* `std::string` is `List Char`.
* The source performs several operations whose failure is undefined
  behaviour in C++ (indexing a `std::vector` out of range, dereferencing
  `rbegin()` of an empty `std::map`, dividing by a zero sample count).  The
  embedding returns `Option` results, with `none` marking exactly the points
  where the C++ would commit undefined behaviour.  The source contains no
  typed error values of any kind.
* The gaussian weights `gaussian(j,1) = sqrt(1/pi) * e^(-j*j)` are computed
  by the C++ in IEEE double precision and the accumulated sum is truncated
  to `int`.  The embedding uses exact fixed-point arithmetic: the weight for
  offset `j` is an integer numerator over the common denominator `10^16`,
  each numerator being the double value of `gaussian(j,1)` scaled by `10^16`
  and truncated.  Every truncation performed on a concrete input in this
  file lands farther than `10^-2` from an integer boundary, so the
  fixed-point model and the double computation truncate identically there.
-/

set_option maxRecDepth 100000

namespace VMD

/-- A per-frame brightness sample: `Frame::time` (frame index) and
`Frame::luminance` (average luminance of the selected area). -/
structure Frame where
  time : Nat
  luminance : Nat
deriving DecidableEq, Repr

/-- A segmented run: `Signal::state` (0 = break, 1 = pulse) and
`Signal::duration` in frames. -/
structure Signal where
  state : Nat
  duration : Nat
deriving DecidableEq, Repr

/-- The fields of the JSON report that the pipeline computes from the sample
sequence (serialization itself is outside the core). -/
structure Report where
  meanLuminance : Nat
  signals : List Signal
  morse : List Char
  message : List Char
deriving DecidableEq, Repr

/-! ### Histogram builder (`processFrame` histogram update, `calculateHistogram`) -/

/-- The 256-bucket luminance histogram `m_frame_luminance_histogram`,
built by the `m_frame_luminance_histogram[t]++` update in `processFrame`.
An index outside the 256 buckets would be undefined behaviour in C++;
`List.set` leaves the list unchanged there. -/
def histArr (samples : List Frame) : List Nat :=
  samples.foldl (fun h f => h.set f.luminance (h.getD f.luminance 0 + 1))
    (List.replicate 256 0)

/-- The weighted-sum accumulation of `calculateHistogram`: the nested
`for i < 16, for j < 16` loops with `n = i * 16 + j`, accumulating
`n * hist[n]`. -/
def weightedSumLoop (h : List Nat) : Nat :=
  (List.range 16).foldl
    (fun acc i =>
      (List.range 16).foldl
        (fun acc2 j => acc2 + (i * 16 + j) * h.getD (i * 16 + j) 0) acc)
    0

/-- The count accumulation of `calculateHistogram`: the same nested loops
accumulating `hist[n]` into `sum`. -/
def countSumLoop (h : List Nat) : Nat :=
  (List.range 16).foldl
    (fun acc i =>
      (List.range 16).foldl
        (fun acc2 j => acc2 + h.getD (i * 16 + j) 0) acc)
    0

/-- `calculateHistogram`'s mean: `m_mean_luminance /= sum`.  When `sum` is
zero the C++ divides by zero (undefined behaviour), modelled as `none`. -/
def meanLum (samples : List Frame) : Option Nat :=
  let h := histArr samples
  let wsum := weightedSumLoop h
  let csum := countSumLoop h
  if csum = 0 then none else some (wsum / csum)

/-! ### State segmenter (`processStateChanges`) -/

/-- The loop body of `processStateChanges`: per frame the state is 0 when
`luminance < mean` and 1 otherwise; a `Signal` carrying the previous state
and the elapsed duration is emitted exactly when the state changes, and
`last_time` advances only then.  No terminal `Signal` is emitted for the
final run. -/
def segGo (mean : Nat) (lastState lastTime : Nat) : List Frame → List Signal
  | [] => []
  | f :: fs =>
    let st := if f.luminance < mean then 0 else 1
    if st ≠ lastState then
      ⟨lastState, f.time - lastTime⟩ :: segGo mean st f.time fs
    else
      segGo mean st lastTime fs

/-- `processStateChanges`, starting from `state = 0, last_state = 0,
last_time = 0`. -/
def processStateChanges (mean : Nat) (samples : List Frame) : List Signal :=
  segGo mean 0 0 samples

/-! ### Peak detector (`Util::get_local_maximums`, with the program's fixed
gaussian window radius `gaussian_window_size = 3`) -/

/-- Fixed-point numerators (denominator `dScale = 10^16`) of the IEEE-double
gaussian weights `gaussian(j,1)` for offsets `j = -3..3`; position `j'` in
`0..6` corresponds to `j = j' - 3`.  The doubles are
`0.5641895835477563`, `0.20755374871029735`, `0.010333492677046027`,
`0.00006962652597337394` for `|j| = 0,1,2,3`. -/
def kernelN : Nat → Nat
  | 0 => 696265259733
  | 1 => 103334926770460
  | 2 => 2075537487102973
  | 3 => 5641895835477563
  | 4 => 2075537487102973
  | 5 => 103334926770460
  | 6 => 696265259733
  | _ => 0

/-- Common fixed-point denominator for the gaussian weights. -/
def dScale : Nat := 10000000000000000

/-- One entry of the smoothed array: the gaussian-filter loop
`for j = -window..window, if 0 <= i+j < size then t += s[i+j]*gaussian(j,1)`
followed by the truncating store `o[i] = t`. -/
def smoothAt (s : List Nat) (i : Nat) : Nat :=
  ((List.range 7).foldl
    (fun t j =>
      if 3 ≤ i + j ∧ i + j - 3 < s.length then
        t + s.getD (i + j - 3) 0 * kernelN j
      else t)
    0) / dScale

/-- The smoothed array `o` (same length as the dense histogram `s`). -/
def smoothList (s : List Nat) : List Nat :=
  (List.range s.length).map (smoothAt s)

/-- Sign of `a - b` for the `int` difference `o[i] - o[i-1]`
(`Util::sign`). -/
def sgn (a b : Nat) : Int :=
  if b < a then 1 else if a < b then -1 else 0

/-- The local-maximum scan of `get_local_maximums`: iterate `idx` over the
array with `prev = o[idx-1]`, `d = sign(o[idx] - o[idx-1])`, pushing the
turning point `(idx-1, o[idx-1])` when the previous difference sign `ld` was
non-negative and `d` is negative; returns the collected turning points and
the final `d`. -/
def tpGo (prev idx : Nat) (ld : Int) : List Nat → List (Nat × Nat) × Int
  | [] => ([], ld)
  | x :: xs =>
    let d := sgn x prev
    let r := tpGo x (idx + 1) d xs
    if 0 < idx ∧ (ld = 1 ∨ ld = 0) ∧ d = -1 then
      ((idx - 1, prev) :: r.1, r.2)
    else r

/-- The turning points of the smoothed array: the scan starting at index 1
with `ld = d = 0`, plus — when the scan ends with `d > 0` (last point still
rising) — the final index `(size - 1, o[size - 1])`. -/
def turningPoints (o : List Nat) : List (Nat × Nat) :=
  match o with
  | [] => []
  | h :: t =>
    let r := tpGo h 1 0 t
    if 0 < r.2 then
      r.1 ++ [((h :: t).length - 1, (h :: t).getD ((h :: t).length - 1) 0)]
    else r.1

/-- Insertion step for the descending sort on the smoothed magnitude
(second component), modelling the `a.second > b.second` comparator. -/
def insertDesc (p : Nat × Nat) : List (Nat × Nat) → List (Nat × Nat)
  | [] => [p]
  | q :: qs => if q.2 < p.2 then p :: q :: qs else q :: insertDesc p qs

/-- Sort turning points descending by smoothed magnitude (`std::sort` with
the `a.second > b.second` comparator; every concrete input evaluated in this
file has pairwise distinct magnitudes, so the unspecified tie order of
`std::sort` is immaterial). -/
def sortByMagDesc : List (Nat × Nat) → List (Nat × Nat)
  | [] => []
  | p :: ps => insertDesc p (sortByMagDesc ps)

/-- The dense duration array `s` of `get_local_maximums`: indexed from 0 to
the largest key of the duration map (`vf.rbegin()->first`), holding the
frequency of each duration.  The map is represented by its multiset of
durations. -/
def denseHist (durs : List Nat) : List Nat :=
  (List.range (durs.foldl Nat.max 0 + 1)).map (fun d => durs.count d)

/-- `Util::get_local_maximums`: dense array, gaussian smoothing, turning
point scan, sort by magnitude, take the first `count` duration values.  On
an empty map the C++ dereferences `rbegin()` of an empty `std::map`
(undefined behaviour), modelled as `none`. -/
def glm (durs : List Nat) (count : Nat) : Option (List Nat) :=
  if durs = [] then none
  else
    some (((sortByMagDesc (turningPoints (smoothList (denseHist durs)))).take
      count).map Prod.fst)

/-! ### Threshold classifier and morse assembler (`processSignals`) -/

/-- Insertion step for the ascending `std::sort` on peak durations. -/
def insertAsc (x : Nat) : List Nat → List Nat
  | [] => [x]
  | y :: ys => if x ≤ y then x :: y :: ys else y :: insertAsc x ys

/-- Ascending sort of the returned peak durations. -/
def sortAsc : List Nat → List Nat
  | [] => []
  | x :: xs => insertAsc x (sortAsc xs)

/-- Truncating midpoint `(a + b) / 2` of two peak durations (C++ `int`
division on non-negative operands). -/
def midpoint (a b : Nat) : Nat := (a + b) / 2

/-- The two OFF thresholds
`off_thresholds[0] = (p[0]+p[1])/2, off_thresholds[1] = (p[1]+p[2])/2`
computed from the ascending-sorted peak list.  Fewer than three peaks makes
the C++ index `off_time_peaks` out of range (undefined behaviour), modelled
as `none`. -/
def offThresholdsOf (peaks : List Nat) : Option (Nat × Nat) :=
  let sp := sortAsc peaks
  match sp.get? 0, sp.get? 1, sp.get? 2 with
  | some a, some b, some c => some (midpoint a b, midpoint b c)
  | _, _, _ => none

/-- The ON threshold `on_thresholds[0] = (p[0]+p[1])/2` from the
ascending-sorted peak list; fewer than two peaks is an out-of-range index
in the C++, modelled as `none`. -/
def onThresholdOf (peaks : List Nat) : Option Nat :=
  let sp := sortAsc peaks
  match sp.get? 0, sp.get? 1 with
  | some a, some b => some (midpoint a b)
  | _, _ => none

/-- The token-emission branch of `processSignals` for one `Signal`:
for state 0, nothing below `off_thresholds[0]`, a space between the two OFF
thresholds, and a word separator `" | "` from `off_thresholds[1]` upward;
for state 1, a dot below `on_thresholds[0]` and a dash from it upward. -/
def classify (t0 t1 ton : Nat) (s : Signal) : List Char :=
  if s.state == 0 then
    if s.duration < t0 then []
    else if s.duration < t1 then [' ']
    else [' ', '|', ' ']
  else
    if s.duration < ton then ['.'] else ['-']

/-- `processSignals`: build the OFF and ON duration histograms, extract 3
OFF peaks and 2 ON peaks, sort them ascending, derive the thresholds, and
assemble the morse token stream by folding `classify` over the signals.
`none` marks the undefined behaviour the C++ commits when a histogram is
empty or a peak vector is shorter than the indices used. -/
def processSignals (sigs : List Signal) : Option (List Char) := do
  let offPeaks ← glm ((sigs.filter (fun s => s.state == 0)).map
    (fun s => s.duration)) 3
  let (t0, t1) ← offThresholdsOf offPeaks
  let onPeaks ← glm ((sigs.filter (fun s => !(s.state == 0))).map
    (fun s => s.duration)) 2
  let ton ← onThresholdOf onPeaks
  pure (sigs.foldl (fun acc s => acc ++ classify t0 t1 ton s) [])

/-! ### Symbol decoder (`Util::replace`, `Util::replace_all`, `decodeMorse`) -/

/-- `Util::replace`: replace the first occurrence of `fr` in the string with
`to`; `none` when `fr` does not occur (the C++ returns `false` and leaves
the string unchanged). -/
def replaceOnce (fr tgt : List Char) : List Char → Option (List Char)
  | [] => if fr.isPrefixOf ([] : List Char) then some (tgt ++ List.drop fr.length []) else none
  | c :: cs =>
    if fr.isPrefixOf (c :: cs) then some (tgt ++ List.drop fr.length (c :: cs))
    else (replaceOnce fr tgt cs).map (fun r => c :: r)

/-- Iterate `replaceOnce` at most `fuel` times, stopping at the first
failure: the body of `Util::replace_all`'s `while (replace(out, from, to));`
loop, with an explicit bound on the number of successful replacements. -/
def replaceAllFuel (fr tgt : List Char) : Nat → List Char → List Char
  | 0, s => s
  | n + 1, s =>
    match replaceOnce fr tgt s with
    | none => s
    | some s2 => replaceAllFuel fr tgt n s2

/-- `Util::replace_all`.  The C++ loops until no occurrence remains; for
every pair `(fr, to)` that `decodeMorse` passes, each successful replacement
strictly decreases a character-weight measure bounded by the string length
(theorem `decode_replace_terminates`), so `s.length + 1` replacements always
suffice to reach the loop's fixpoint and this fuel-based embedding agrees
with the unbounded loop. -/
def replaceAll (fr tgt : List Char) (s : List Char) : List Char :=
  replaceAllFuel fr tgt (s.length + 1) s

/-- The fixed morse symbol table of `decodeMorse` (pattern, replacement). -/
def morseSymbols : List (List Char × List Char) :=
  [ (['.', '-'], ['A']),
    (['-', '.', '.', '.'], ['B']),
    (['-', '.', '-', '.'], ['C']),
    (['-', '.', '.'], ['D']),
    (['.'], ['E']),
    (['.', '.', '-', '.'], ['F']),
    (['-', '-', '.'], ['G']),
    (['.', '.', '.', '.'], ['H']),
    (['.', '.'], ['I']),
    (['.', '-', '-', '-'], ['J']),
    (['-', '.', '-'], ['K']),
    (['.', '-', '.', '.'], ['L']),
    (['-', '-'], ['M']),
    (['-', '.'], ['N']),
    (['-', '-', '-'], ['O']),
    (['.', '-', '-', '.'], ['P']),
    (['-', '-', '.', '-'], ['Q']),
    (['.', '-', '.'], ['R']),
    (['.', '.', '.'], ['S']),
    (['-'], ['T']),
    (['.', '.', '-'], ['U']),
    (['.', '.', '.', '-'], ['V']),
    (['.', '-', '-'], ['W']),
    (['-', '.', '.', '-'], ['X']),
    (['-', '.', '-', '-'], ['Y']),
    (['-', '-', '.', '.'], ['Z']),
    (['-', '-', '-', '-', '-'], ['0']),
    (['.', '-', '-', '-', '-'], ['1']),
    (['.', '.', '-', '-', '-'], ['2']),
    (['.', '.', '.', '-', '-'], ['3']),
    (['.', '.', '.', '.', '-'], ['4']),
    (['.', '.', '.', '.', '.'], ['5']),
    (['-', '.', '.', '.', '.'], ['6']),
    (['-', '-', '.', '.', '.'], ['7']),
    (['-', '-', '-', '.', '.'], ['8']),
    (['-', '-', '-', '-', '.'], ['9']),
    (['-', '-', '-', '.', '.', '.'], [':']),
    (['-', '.', '.', '.', '.', '-'], ['-']),
    (['.', '-', '.', '-', '.', '-'], ['.']) ]

/-- The space-delimited search pattern `" " + m.pattern + " "` for one
table entry. -/
def symPat (m : List Char × List Char) : List Char := ' ' :: m.1 ++ [' ']

/-- The space-delimited replacement `" " + m.string + " "` for one table
entry. -/
def symRep (m : List Char × List Char) : List Char := ' ' :: m.2 ++ [' ']

/-- `decodeMorse`: one `replace_all` pass per table entry in table order,
then strip the remaining spaces and turn the word separator `|` into a
single space. -/
def decodeMorse (input : List Char) : List Char :=
  let out := morseSymbols.foldl (fun acc m => replaceAll (symPat m) (symRep m) acc) input
  let out2 := replaceAll [' '] [] out
  replaceAll ['|'] [' '] out2

/-! ### The full pipeline (`run`, after frame capture) -/

/-- The core pipeline of `run` once the sample sequence is captured:
`calculateHistogram`, `processStateChanges`, `processSignals`,
`decodeMorse`.  `none` marks the points where the C++ commits undefined
behaviour; the source defines no typed error values. -/
def pipelineRun (samples : List Frame) : Option Report := do
  let mean ← meanLum samples
  let sigs := processStateChanges mean samples
  let morse ← processSignals sigs
  pure ⟨mean, sigs, morse, decodeMorse morse⟩

/-! ### The synthetic SOS sample sequence of the round-trip scenario -/

/-- The nine 3-frame ON intervals (inclusive frame ranges) of the synthetic
SOS sample sequence: ON durations `{3,3,3},{3,3,3},{3,3,3}` separated by OFF
gaps `2,2,6,2,2,6,2,2` and a terminal 20-frame OFF gap. -/
def sosOnRuns : List (Nat × Nat) :=
  [(0, 2), (5, 7), (10, 12), (19, 21), (24, 26), (29, 31), (38, 40), (43, 45), (48, 50)]

/-- Whether frame `t` of the synthetic SOS sequence is an ON frame. -/
def sosOn (t : Nat) : Bool :=
  sosOnRuns.any (fun p => decide (p.1 ≤ t) && decide (t ≤ p.2))

/-- The synthetic SOS sample sequence: 71 frames (indices 0..70), brightness
255 on ON frames and 0 on OFF frames, realizing ON durations
`{3,3,3},{3,3,3},{3,3,3}` and OFF durations `{2,2,6,2,2,6,2,2,20}`. -/
def sosSamples : List Frame :=
  (List.range 71).map (fun t => ⟨t, if sosOn t then 255 else 0⟩)


/-! ### Specification-side characterization of the peak detector (C6) -/

/-- The sign of the first difference of the smoothed array just before
position `i`: 0 for `i < 2` (the scan starts with `ld = 0`), otherwise
`sign(o[i-1] - o[i-2])`. -/
def ldAt (o : List Nat) (i : Nat) : Int :=
  if i < 2 then 0 else sgn (o.getD (i - 1) 0) (o.getD (i - 2) 0)

/-- Specification predicate: position `i` of the scan records index `i - 1`
as a candidate peak exactly when the sign of the first difference changes
from non-negative (rising or flat, including the virtual flat start) to
negative at `i`. -/
def isPeakAt (o : List Nat) (i : Nat) : Bool :=
  decide (1 ≤ i) && decide (0 ≤ ldAt o i) &&
    decide (sgn (o.getD i 0) (o.getD (i - 1) 0) = -1)

/-- Specification-side candidate peaks: every index `i - 1` whose position
`i` satisfies `isPeakAt`, in scan order, plus the last index when the scan
ends while still rising. -/
def specPeaks (o : List Nat) : List (Nat × Nat) :=
  ((List.range o.length).filter (isPeakAt o)).map
      (fun i => (i - 1, o.getD (i - 1) 0)) ++
    (if 0 < ldAt o o.length then [(o.length - 1, o.getD (o.length - 1) 0)]
     else [])

lemma sgn_trichotomy (a b : Nat) : sgn a b = 1 ∨ sgn a b = 0 ∨ sgn a b = -1 := by
  unfold sgn
  split_ifs <;> simp

lemma ldAt_trichotomy (o : List Nat) (i : Nat) :
    ldAt o i = 1 ∨ ldAt o i = 0 ∨ ldAt o i = -1 := by
  unfold ldAt
  split_ifs with h
  · simp
  · exact sgn_trichotomy (o.getD (i - 1) 0) (o.getD (i - 2) 0)

lemma drop_cons_facts (o : List Nat) :
    ∀ (i : Nat) (x : Nat) (xs : List Nat), o.drop i = x :: xs →
      o.getD i 0 = x ∧ o.drop (i + 1) = xs ∧ i < o.length := by
  induction o with
  | nil =>
    intro i x xs hd
    simp at hd
  | cons y ys ih =>
    intro i x xs hd
    cases i with
    | zero =>
      simp at hd
      refine ⟨?_, ?_, ?_⟩
      · simp [hd.1]
      · simp [hd.2]
      · simp
    | succ n =>
      have hd2 : ys.drop n = x :: xs := hd
      obtain ⟨h1, h2, h3⟩ := ih n x xs hd2
      refine ⟨?_, ?_, ?_⟩
      · simpa using h1
      · simpa using h2
      · simp
        omega

lemma filter_range_split (p : Nat → Bool) :
    ∀ (n i : Nat), i < n →
      (List.range n).filter (fun j => decide (i ≤ j) && p j) =
        (if p i then [i] else []) ++
          (List.range n).filter (fun j => decide (i + 1 ≤ j) && p j) := by
  intro n
  induction n with
  | zero =>
    intro i h
    omega
  | succ n ih =>
    intro i h
    rw [List.range_succ, List.filter_append, List.filter_append]
    by_cases hin : i < n
    · rw [ih i hin]
      have e1 : (decide (i ≤ n) && p n) = p n := by
        have : i ≤ n := by omega
        simp [this]
      have e2 : (decide (i + 1 ≤ n) && p n) = p n := by
        have : i + 1 ≤ n := by omega
        simp [this]
      simp only [List.filter_cons, List.filter_nil, e1, e2]
      rw [List.append_assoc]
    · have hi : i = n := by omega
      subst hi
      have e1 : (List.range i).filter (fun j => decide (i ≤ j) && p j) = [] := by
        apply List.filter_eq_nil_iff.mpr
        intro j hj
        rw [List.mem_range] at hj
        have : ¬ i ≤ j := by omega
        simp [this]
      have e2 : (List.range i).filter (fun j => decide (i + 1 ≤ j) && p j) = [] := by
        apply List.filter_eq_nil_iff.mpr
        intro j hj
        rw [List.mem_range] at hj
        have : ¬ i + 1 ≤ j := by omega
        simp [this]
      have e3 : (decide (i ≤ i) && p i) = p i := by simp
      have e4 : (decide (i + 1 ≤ i) && p i) = false := by
        have : ¬ i + 1 ≤ i := by omega
        simp [this]
      simp only [e1, e2, List.filter_cons, List.filter_nil, e3, e4]
      by_cases hp : p i = true <;> simp [hp]

lemma tpGo_eq (o : List Nat) :
    ∀ (u : List Nat) (i : Nat), 1 ≤ i → i ≤ o.length → o.drop i = u →
      tpGo (o.getD (i - 1) 0) i (ldAt o i) u =
        (((List.range o.length).filter (fun j => decide (i ≤ j) && isPeakAt o j)).map
            (fun j => (j - 1, o.getD (j - 1) 0)),
         ldAt o o.length) := by
  intro u
  induction u with
  | nil =>
    intro i h1 h2 hd
    have hlen : o.length - i = 0 := by
      have := congrArg List.length hd
      simpa [List.length_drop] using this
    have hi : i = o.length := by omega
    have hfil : (List.range o.length).filter
        (fun j => decide (i ≤ j) && isPeakAt o j) = [] := by
      apply List.filter_eq_nil_iff.mpr
      intro j hj
      rw [List.mem_range] at hj
      have : ¬ i ≤ j := by omega
      simp [this]
    simp only [tpGo]
    rw [hfil, hi]
    simp
  | cons x xs ih =>
    intro i h1 h2 hd
    obtain ⟨hx, hxs, hlt⟩ := drop_cons_facts o i x xs hd
    subst hx
    have hld : ldAt o (i + 1) = sgn (o.getD i 0) (o.getD (i - 1) 0) := by
      have hn : ¬ i + 1 < 2 := by omega
      have e1 : i + 1 - 1 = i := by omega
      have e2 : i + 1 - 2 = i - 1 := by omega
      simp only [ldAt, hn, if_false, e1, e2]
    have hrec := ih (i + 1) (by omega) (by omega) hxs
    rw [show (i + 1) - 1 = i from by omega, hld] at hrec
    have hcond : ((0 < i ∧ (ldAt o i = 1 ∨ ldAt o i = 0) ∧
        sgn (o.getD i 0) (o.getD (i - 1) 0) = -1) ↔ isPeakAt o i = true) := by
      rcases ldAt_trichotomy o i with h | h | h <;>
        simp [isPeakAt, h] <;> omega
    have hsplit := filter_range_split (isPeakAt o) o.length i hlt
    have unf : tpGo (o.getD (i - 1) 0) i (ldAt o i) (o.getD i 0 :: xs) =
        (if 0 < i ∧ (ldAt o i = 1 ∨ ldAt o i = 0) ∧
            sgn (o.getD i 0) (o.getD (i - 1) 0) = -1 then
          ((i - 1, o.getD (i - 1) 0) ::
              (tpGo (o.getD i 0) (i + 1)
                (sgn (o.getD i 0) (o.getD (i - 1) 0)) xs).1,
           (tpGo (o.getD i 0) (i + 1)
              (sgn (o.getD i 0) (o.getD (i - 1) 0)) xs).2)
        else tpGo (o.getD i 0) (i + 1)
          (sgn (o.getD i 0) (o.getD (i - 1) 0)) xs) := rfl
    rw [unf, hrec, hsplit]
    by_cases hp : isPeakAt o i = true
    · rw [if_pos (hcond.mpr hp), if_pos hp]
      simp
    · rw [if_neg (fun hc => hp (hcond.mp hc)), if_neg hp]
      simp

lemma turningPoints_eq_specPeaks (o : List Nat) : turningPoints o = specPeaks o := by
  cases o with
  | nil => simp [turningPoints, specPeaks, ldAt]
  | cons h t =>
    have key := tpGo_eq (h :: t) t 1 (le_refl 1) (by simp) rfl
    have h0 : (h :: t).getD 0 0 = h := rfl
    have hld1 : ldAt (h :: t) 1 = 0 := by simp [ldAt]
    rw [show (1 : Nat) - 1 = 0 from rfl, h0, hld1] at key
    have hfil : ∀ j, (decide (1 ≤ j) && isPeakAt (h :: t) j) = isPeakAt (h :: t) j := by
      intro j
      by_cases hj : 1 ≤ j
      · simp [hj]
      · have hj0 : j = 0 := by omega
        subst hj0
        simp [isPeakAt]
    have hfe : (List.range (h :: t).length).filter
        (fun j => decide (1 ≤ j) && isPeakAt (h :: t) j) =
        (List.range (h :: t).length).filter (isPeakAt (h :: t)) := by
      apply List.filter_congr
      intro j hj
      exact hfil j
    rw [hfe] at key
    have unfT : turningPoints (h :: t) =
        (if 0 < (tpGo h 1 0 t).2 then
          (tpGo h 1 0 t).1 ++
            [((h :: t).length - 1, (h :: t).getD ((h :: t).length - 1) 0)]
        else (tpGo h 1 0 t).1) := rfl
    rw [unfT, key]
    simp only [specPeaks]
    split_ifs <;> simp

lemma length_insertDesc (p : Nat × Nat) :
    ∀ l : List (Nat × Nat), (insertDesc p l).length = l.length + 1 := by
  intro l
  induction l with
  | nil => rfl
  | cons q qs ih =>
    unfold insertDesc
    split_ifs <;> simp [ih]

lemma length_sortByMagDesc :
    ∀ l : List (Nat × Nat), (sortByMagDesc l).length = l.length := by
  intro l
  induction l with
  | nil => rfl
  | cons p ps ih =>
    unfold sortByMagDesc
    rw [length_insertDesc, ih, List.length_cons]


/-! ### Segmentation invariants (C8) -/

lemma segGo_head_state (mean : Nat) :
    ∀ (fs : List Frame) (ls lt : Nat) (sig : Signal),
      (segGo mean ls lt fs).head? = some sig → sig.state = ls := by
  intro fs
  induction fs with
  | nil =>
    intro ls lt sig h
    simp [segGo] at h
  | cons f fs ih =>
    intro ls lt sig h
    simp only [segGo] at h
    by_cases hne : (if f.luminance < mean then 0 else 1) ≠ ls
    · rw [if_pos hne] at h
      rw [List.head?_cons] at h
      have h2 := Option.some.inj h
      rw [← h2]
    · rw [if_neg hne] at h
      have heq : (if f.luminance < mean then 0 else 1) = ls := not_ne_iff.mp hne
      rw [heq] at h
      exact ih ls lt sig h

lemma segGo_chain (mean : Nat) :
    ∀ (fs : List Frame) (ls lt : Nat),
      List.Chain' (fun a b : Signal => a.state ≠ b.state) (segGo mean ls lt fs) := by
  intro fs
  induction fs with
  | nil =>
    intro ls lt
    simp [segGo]
  | cons f fs ih =>
    intro ls lt
    simp only [segGo]
    by_cases hne : (if f.luminance < mean then 0 else 1) ≠ ls
    · rw [if_pos hne, List.chain'_cons']
      refine ⟨?_, ih _ _⟩
      intro b hb
      rw [Option.mem_def] at hb
      have hbs := segGo_head_state mean fs _ _ b hb
      rw [hbs]
      exact Ne.symm hne
    · rw [if_neg hne]
      exact ih _ _

lemma segGo_all_pos (mean : Nat) :
    ∀ (fs : List Frame) (ls lt : Nat),
      (∀ f ∈ fs, lt < f.time) →
      List.Pairwise (fun a b : Frame => a.time < b.time) fs →
      ∀ sig ∈ segGo mean ls lt fs, 1 ≤ sig.duration := by
  intro fs
  induction fs with
  | nil =>
    intro ls lt h1 h2 sig hs
    simp [segGo] at hs
  | cons f fs ih =>
    intro ls lt h1 h2 sig hs
    rw [List.pairwise_cons] at h2
    obtain ⟨hf, h2a⟩ := h2
    have hlt : lt < f.time := h1 f (List.mem_cons_self f fs)
    simp only [segGo] at hs
    by_cases hne : (if f.luminance < mean then 0 else 1) ≠ ls
    · rw [if_pos hne] at hs
      rcases List.mem_cons.mp hs with h | h
      · rw [h]
        simp
        omega
      · exact ih _ _ hf h2a sig h
    · rw [if_neg hne] at hs
      exact ih _ _ (fun g hg => hlt.trans (hf g hg)) h2a sig hs

lemma segGo_tail_pos (mean : Nat) :
    ∀ (fs : List Frame) (ls lt : Nat),
      List.Pairwise (fun a b : Frame => a.time < b.time) fs →
      (∀ f ∈ fs, lt ≤ f.time) →
      ∀ sig ∈ (segGo mean ls lt fs).tail, 1 ≤ sig.duration := by
  intro fs
  induction fs with
  | nil =>
    intro ls lt h1 h2 sig hs
    simp [segGo] at hs
  | cons f fs ih =>
    intro ls lt h1 h2 sig hs
    rw [List.pairwise_cons] at h1
    obtain ⟨hf, h1a⟩ := h1
    simp only [segGo] at hs
    by_cases hne : (if f.luminance < mean then 0 else 1) ≠ ls
    · rw [if_pos hne, List.tail_cons] at hs
      exact segGo_all_pos mean fs _ _ hf h1a sig hs
    · rw [if_neg hne] at hs
      refine ih _ _ h1a ?_ sig hs
      intro g hg
      exact le_trans (h2 f (List.mem_cons_self f fs)) (le_of_lt (hf g hg))


/-! ### Histogram mean formula (C9) -/

lemma getD_set (h : List Nat) :
    ∀ (a v x : Nat), (h.set a x).getD v 0 =
      if a = v ∧ a < h.length then x else h.getD v 0 := by
  induction h with
  | nil =>
    intro a v x
    simp
  | cons y ys ih =>
    intro a v x
    cases a with
    | zero =>
      cases v with
      | zero => simp
      | succ v => simp
    | succ a =>
      cases v with
      | zero => simp
      | succ v =>
        have := ih a v x
        simp only [List.set_cons_succ, List.getD_cons_succ, this, List.length_cons]
        by_cases hav : a = v ∧ a < ys.length
        · rw [if_pos hav, if_pos ⟨by omega, by omega⟩]
        · rw [if_neg hav, if_neg (by omega)]

lemma histFold_length :
    ∀ (samples : List Frame) (h : List Nat),
      (samples.foldl (fun h f => h.set f.luminance (h.getD f.luminance 0 + 1)) h).length =
        h.length := by
  intro samples
  induction samples with
  | nil =>
    intro h
    rfl
  | cons f fs ih =>
    intro h
    rw [List.foldl_cons, ih, List.length_set]

lemma histFold_getD :
    ∀ (samples : List Frame) (h : List Nat) (v : Nat), v < h.length →
      (samples.foldl (fun h f => h.set f.luminance (h.getD f.luminance 0 + 1)) h).getD v 0 =
        h.getD v 0 + (samples.filter (fun f => f.luminance == v)).length := by
  intro samples
  induction samples with
  | nil =>
    intro h v hv
    simp
  | cons f fs ih =>
    intro h v hv
    rw [List.foldl_cons]
    have hstep := ih (h.set f.luminance (h.getD f.luminance 0 + 1)) v
      (by rw [List.length_set]; exact hv)
    rw [hstep, getD_set]
    by_cases hfv : f.luminance = v
    · subst hfv
      rw [if_pos ⟨rfl, by omega⟩, List.filter_cons, if_pos (by simp)]
      rw [List.length_cons]
      omega
    · rw [if_neg (by omega), List.filter_cons, if_neg (by simp [hfv])]

lemma sum_map_add (A B : Nat → Nat) :
    ∀ l : List Nat, (l.map (fun v => A v + B v)).sum = (l.map A).sum + (l.map B).sum := by
  intro l
  induction l with
  | nil => rfl
  | cons x xs ih =>
    simp [ih]
    omega

lemma sum_indicator_zero (a : Nat) :
    ∀ n : Nat, n ≤ a → ((List.range n).map (fun v => if a = v then 1 else 0)).sum = 0 := by
  intro n
  induction n with
  | zero =>
    intro h
    rfl
  | succ n ih =>
    intro h
    rw [List.range_succ, List.map_append, List.sum_append, ih (by omega)]
    have : a ≠ n := by omega
    simp [this]

lemma sum_indicator (a : Nat) :
    ∀ n : Nat, a < n → ((List.range n).map (fun v => if a = v then 1 else 0)).sum = 1 := by
  intro n
  induction n with
  | zero =>
    intro h
    omega
  | succ n ih =>
    intro h
    rw [List.range_succ, List.map_append, List.sum_append]
    by_cases han : a = n
    · rw [sum_indicator_zero a n (by omega)]
      simp [han]
    · rw [ih (by omega)]
      simp [han]

lemma count_sum :
    ∀ samples : List Frame, (∀ f ∈ samples, f.luminance ≤ 255) →
      ((List.range 256).map
        (fun v => (samples.filter (fun f => f.luminance == v)).length)).sum =
        samples.length := by
  intro samples
  induction samples with
  | nil =>
    intro hb
    simp
  | cons f fs ih =>
    intro hb
    have hlen : ∀ v : Nat, ((f :: fs).filter (fun g => g.luminance == v)).length =
        (if f.luminance = v then 1 else 0) +
          (fs.filter (fun g => g.luminance == v)).length := by
      intro v
      rw [List.filter_cons]
      by_cases hfv : f.luminance = v
      · rw [if_pos (by simp [hfv]), if_pos hfv, List.length_cons]
        omega
      · rw [if_neg (by simp [hfv]), if_neg hfv]
        omega
    have hmap : ((List.range 256).map
        (fun v => ((f :: fs).filter (fun g => g.luminance == v)).length)) =
        ((List.range 256).map (fun v => (if f.luminance = v then 1 else 0) +
          (fs.filter (fun g => g.luminance == v)).length)) := by
      apply List.map_congr_left
      intro v hv
      exact hlen v
    rw [hmap, sum_map_add, sum_indicator f.luminance 256
      (by have := hb f (List.mem_cons_self f fs); omega),
      ih (fun g hg => hb g (List.mem_cons_of_mem f hg))]
    rw [List.length_cons]
    omega

lemma foldl_add_eq (g : Nat → Nat) :
    ∀ (l : List Nat) (a : Nat),
      l.foldl (fun acc n => acc + g n) a = a + (l.map g).sum := by
  intro l
  induction l with
  | nil =>
    intro a
    simp
  | cons x xs ih =>
    intro a
    rw [List.foldl_cons, ih, List.map_cons, List.sum_cons]
    omega

lemma sum_range_blocks (g : Nat → Nat) (b : Nat) :
    ∀ a : Nat, ((List.range (a * b)).map g).sum =
      ((List.range a).map
        (fun i => ((List.range b).map (fun j => g (i * b + j))).sum)).sum := by
  intro a
  induction a with
  | zero => simp
  | succ a ih =>
    have h1 : (a + 1) * b = a * b + b := by ring
    rw [h1, List.range_add, List.map_append, List.sum_append, ih,
      List.range_succ, List.map_append, List.sum_append, List.map_map]
    simp [Function.comp]
    rfl

lemma nested_loop_eq (g : Nat → Nat) :
    (List.range 16).foldl
        (fun acc i => (List.range 16).foldl (fun acc2 j => acc2 + g (i * 16 + j)) acc) 0 =
      ((List.range 256).map g).sum := by
  have hfun : (fun (acc : Nat) (i : Nat) =>
      (List.range 16).foldl (fun acc2 j => acc2 + g (i * 16 + j)) acc) =
      (fun acc i => acc + ((List.range 16).map (fun j => g (i * 16 + j))).sum) := by
    funext acc i
    exact foldl_add_eq _ _ _
  rw [hfun, foldl_add_eq]
  have hb := sum_range_blocks g 16 16
  rw [show (16 * 16 : Nat) = 256 from rfl] at hb
  rw [hb]
  omega

lemma getD_replicate_zero :
    ∀ (n v : Nat), ((List.replicate n 0 : List Nat)).getD v 0 = 0 := by
  intro n
  induction n with
  | zero =>
    intro v
    simp
  | succ n ih =>
    intro v
    cases v with
    | zero => simp [List.replicate_succ]
    | succ v =>
      rw [List.replicate_succ, List.getD_cons_succ]
      exact ih v

lemma weightedSumLoop_eq (h : List Nat) :
    weightedSumLoop h = ((List.range 256).map (fun n => n * h.getD n 0)).sum :=
  nested_loop_eq (fun n => n * h.getD n 0)

lemma countSumLoop_eq (h : List Nat) :
    countSumLoop h = ((List.range 256).map (fun n => h.getD n 0)).sum :=
  nested_loop_eq (fun n => h.getD n 0)


/-- The histogram-bucket form of the mean: `meanLum` equals the sum of
`value * count` over the 256 buckets divided by the sample count. -/
lemma meanLum_formula (samples : List Frame) (hne : samples ≠ [])
    (hb : ∀ f ∈ samples, f.luminance ≤ 255) :
    meanLum samples =
      some (((List.range 256).map
          (fun v => v * (samples.filter (fun f => f.luminance == v)).length)).sum /
        samples.length) := by
  have hget : ∀ v, v < 256 → (histArr samples).getD v 0 =
      (samples.filter (fun f => f.luminance == v)).length := by
    intro v hv
    have hlenr : v < (List.replicate 256 0 : List Nat).length := by simp [hv]
    have hf := histFold_getD samples (List.replicate 256 0) v hlenr
    rw [getD_replicate_zero 256 v] at hf
    show ((samples.foldl (fun h f => h.set f.luminance (h.getD f.luminance 0 + 1))
      (List.replicate 256 0))).getD v 0 = _
    rw [hf]
    omega
  have hw : weightedSumLoop (histArr samples) =
      ((List.range 256).map
        (fun v => v * (samples.filter (fun f => f.luminance == v)).length)).sum := by
    rw [weightedSumLoop_eq]
    congr 1
    apply List.map_congr_left
    intro v hv
    rw [hget v (List.mem_range.mp hv)]
  have hc : countSumLoop (histArr samples) = samples.length := by
    rw [countSumLoop_eq]
    have hm : ((List.range 256).map (fun v => (histArr samples).getD v 0)) =
        ((List.range 256).map
          (fun v => (samples.filter (fun f => f.luminance == v)).length)) := by
      apply List.map_congr_left
      intro v hv
      rw [hget v (List.mem_range.mp hv)]
    rw [hm]
    exact count_sum samples hb
  have hpos : samples.length ≠ 0 := by
    cases samples with
    | nil => exact absurd rfl hne
    | cons f fs => simp
  simp [meanLum, hc, hw, hpos]

lemma sum_indicator_mul_zero (a : Nat) :
    ∀ n : Nat, n ≤ a →
      ((List.range n).map (fun v => v * (if a = v then 1 else 0))).sum = 0 := by
  intro n
  induction n with
  | zero =>
    intro h
    rfl
  | succ n ih =>
    intro h
    rw [List.range_succ, List.map_append, List.sum_append, ih (by omega)]
    have : a ≠ n := by omega
    simp [this]

lemma sum_indicator_mul (a : Nat) :
    ∀ n : Nat, a < n →
      ((List.range n).map (fun v => v * (if a = v then 1 else 0))).sum = a := by
  intro n
  induction n with
  | zero =>
    intro h
    omega
  | succ n ih =>
    intro h
    rw [List.range_succ, List.map_append, List.sum_append]
    by_cases han : a = n
    · rw [sum_indicator_mul_zero a n (by omega)]
      simp [han]
    · rw [ih (by omega)]
      simp [han]

/-- The bucket-weighted sum collapses to the direct sum of the sample
luminances (each sample falls in exactly one bucket). -/
lemma bucket_sum_eq :
    ∀ samples : List Frame, (∀ f ∈ samples, f.luminance ≤ 255) →
      ((List.range 256).map
        (fun v => v * (samples.filter (fun f => f.luminance == v)).length)).sum =
        (samples.map (fun f => f.luminance)).sum := by
  intro samples
  induction samples with
  | nil =>
    intro hb
    simp
  | cons f fs ih =>
    intro hb
    have hlen : ∀ v : Nat, ((f :: fs).filter (fun g => g.luminance == v)).length =
        (if f.luminance = v then 1 else 0) +
          (fs.filter (fun g => g.luminance == v)).length := by
      intro v
      rw [List.filter_cons]
      by_cases hfv : f.luminance = v
      · rw [if_pos (by simp [hfv]), if_pos hfv, List.length_cons]
        omega
      · rw [if_neg (by simp [hfv]), if_neg hfv]
        omega
    have hmap : ((List.range 256).map
        (fun v => v * ((f :: fs).filter (fun g => g.luminance == v)).length)) =
        ((List.range 256).map (fun v => v * (if f.luminance = v then 1 else 0) +
          v * (fs.filter (fun g => g.luminance == v)).length)) := by
      apply List.map_congr_left
      intro v hv
      rw [hlen v]
      ring
    rw [hmap, sum_map_add, sum_indicator_mul f.luminance 256
      (by have := hb f (List.mem_cons_self f fs); omega),
      ih (fun g hg => hb g (List.mem_cons_of_mem f hg))]
    simp

/-- The mean as a single pass over the samples: sum of luminances divided
by the sample count. -/
lemma meanLum_simple (samples : List Frame) (hne : samples ≠ [])
    (hb : ∀ f ∈ samples, f.luminance ≤ 255) :
    meanLum samples =
      some ((samples.map (fun f => f.luminance)).sum / samples.length) := by
  rw [meanLum_formula samples hne hb, bucket_sum_eq samples hb]

/-- The pipeline aborts when the morse stage aborts, whatever the mean. -/
lemma pipelineRun_eq_none (samples : List Frame) (m : Nat)
    (h1 : meanLum samples = some m)
    (h2 : processSignals (processStateChanges m samples) = none) :
    pipelineRun samples = none := by
  unfold pipelineRun
  rw [h1]
  show Option.bind (processSignals (processStateChanges m samples)) _ = none
  rw [h2]
  rfl

lemma countSumLoop_histArr_nil : countSumLoop (histArr []) = 0 := by
  rw [countSumLoop_eq]
  have hm : ((List.range 256).map (fun v => (histArr ([] : List Frame)).getD v 0)) =
      ((List.range 256).map (fun v => (0 : Nat))) := by
    apply List.map_congr_left
    intro v hv
    show (List.replicate 256 0 : List Nat).getD v 0 = 0
    exact getD_replicate_zero 256 v
  rw [hm]
  simp

lemma meanLum_nil : meanLum [] = none := by
  simp only [meanLum]
  rw [countSumLoop_histArr_nil]
  rfl

/-! ### Termination of replace_all in decodeMorse (C10) -/

/-- Character-weight sum of a string, for the termination measures. -/
def wsum (w : Char → Nat) (s : List Char) : Nat := (s.map w).sum

/-- Weight counting morse signs: 1 for a dot or dash, 0 otherwise. -/
def wDD (c : Char) : Nat := if c = '.' ∨ c = '-' then 1 else 0

/-- Weight counting word-separator bars. -/
def wBar (c : Char) : Nat := if c = '|' then 1 else 0

lemma wsum_append (w : Char → Nat) (a b : List Char) :
    wsum w (a ++ b) = wsum w a + wsum w b := by
  simp [wsum]

lemma wsum_cons (w : Char → Nat) (c : Char) (s : List Char) :
    wsum w (c :: s) = w c + wsum w s := by
  simp [wsum]

lemma prefix_decomp :
    ∀ (fr s : List Char), fr.isPrefixOf s = true → fr ++ s.drop fr.length = s := by
  intro fr
  induction fr with
  | nil =>
    intro s h
    simp
  | cons a as ih =>
    intro s h
    cases s with
    | nil => simp [List.isPrefixOf] at h
    | cons b bs =>
      simp only [List.isPrefixOf, Bool.and_eq_true, beq_iff_eq] at h
      obtain ⟨hab, hrest⟩ := h
      subst hab
      have := ih bs hrest
      simp only [List.length_cons, List.drop_succ_cons, List.cons_append]
      rw [this]

lemma replaceOnce_wsum (w : Char → Nat) (fr tgt : List Char) :
    ∀ (s s2 : List Char), replaceOnce fr tgt s = some s2 →
      wsum w s2 + wsum w fr = wsum w s + wsum w tgt := by
  intro s
  induction s with
  | nil =>
    intro s2 h
    simp only [replaceOnce] at h
    by_cases hp : fr.isPrefixOf ([] : List Char) = true
    · rw [if_pos hp] at h
      have hs2 := Option.some.inj h
      have hd := prefix_decomp fr [] hp
      rw [← hs2, wsum_append]
      have hfr : wsum w (fr ++ List.drop fr.length ([] : List Char)) = wsum w [] := by
        rw [hd]
      rw [wsum_append] at hfr
      omega
    · rw [if_neg hp] at h
      exact absurd h (by simp)
  | cons c cs ih =>
    intro s2 h
    simp only [replaceOnce] at h
    by_cases hp : fr.isPrefixOf (c :: cs) = true
    · rw [if_pos hp] at h
      have hs2 := Option.some.inj h
      have hd := prefix_decomp fr (c :: cs) hp
      rw [← hs2, wsum_append]
      have hfr : wsum w (fr ++ List.drop fr.length (c :: cs)) = wsum w (c :: cs) := by
        rw [hd]
      rw [wsum_append] at hfr
      omega
    · rw [if_neg hp] at h
      cases hro : replaceOnce fr tgt cs with
      | none =>
        rw [hro] at h
        simp at h
      | some r =>
        rw [hro] at h
        simp at h
        have heq := ih r hro
        rw [← h, wsum_cons, wsum_cons]
        omega

lemma replace_fix (w : Char → Nat) (fr tgt : List Char)
    (hlt : wsum w tgt < wsum w fr) :
    ∀ (n : Nat) (s : List Char), wsum w s ≤ n →
      replaceOnce fr tgt (replaceAllFuel fr tgt n s) = none := by
  intro n
  induction n with
  | zero =>
    intro s hs
    cases hro : replaceOnce fr tgt s with
    | none => simpa [replaceAllFuel] using hro
    | some s2 =>
      have heq := replaceOnce_wsum w fr tgt s s2 hro
      omega
  | succ n ih =>
    intro s hs
    cases hro : replaceOnce fr tgt s with
    | none =>
      simp only [replaceAllFuel, hro]
    | some s2 =>
      have heq := replaceOnce_wsum w fr tgt s s2 hro
      simp only [replaceAllFuel, hro]
      exact ih s2 (by omega)

lemma wsum_le_length (w : Char → Nat) (hw : ∀ c, w c ≤ 1) :
    ∀ s : List Char, wsum w s ≤ s.length := by
  intro s
  induction s with
  | nil => simp [wsum]
  | cons c cs ih =>
    rw [wsum_cons, List.length_cons]
    have := hw c
    omega

lemma morse_entry_decreasing :
    ∀ m ∈ morseSymbols, wsum wDD (symRep m) < wsum wDD (symPat m) := by
  decide



/-! ### The claims -/

/-- C1: the claim asserts that an input with too few peaks fails with a
typed `InsufficientSignalVariation` error and never indexes the peak
vectors out of range.  The source has no typed errors at all: on the
constant-brightness input (all samples 128) segmentation yields the single
signal `(OFF, 0)`, peak extraction returns an empty peak vector, and
`processSignals` indexes `off_time_peaks[0]` and `[1]` out of range
(undefined behaviour, modelled by `offThresholdsOf [] = none`); the
pipeline aborts with `none`, not with a typed error. -/
theorem constant_input_unchecked :
    processStateChanges 128 [⟨0, 128⟩, ⟨1, 128⟩, ⟨2, 128⟩] = [⟨0, 0⟩] ∧
    glm [0] 3 = some [] ∧
    offThresholdsOf [] = none ∧
    pipelineRun [⟨0, 128⟩, ⟨1, 128⟩, ⟨2, 128⟩] = none := by
  refine ⟨rfl, rfl, rfl, ?_⟩
  have hm : meanLum [⟨0, 128⟩, ⟨1, 128⟩, ⟨2, 128⟩] = some 128 := by
    rw [meanLum_simple [⟨0, 128⟩, ⟨1, 128⟩, ⟨2, 128⟩] (by decide) (by decide)]
    decide
  exact pipelineRun_eq_none _ 128 hm rfl

/-- C2: the claim asserts that segmentation emits the final run as a
terminal `Signal`, making the durations sum to the covered frame span.  The
source only emits a `Signal` on a state change: on the samples
`(0,255), (1,0), (2,0)` (mean 85) the trailing OFF run is dropped, the
emitted durations sum to 1, and neither the index span 2 nor the sample
count 3 is reached. -/
theorem trailing_run_dropped :
    meanLum [⟨0, 255⟩, ⟨1, 0⟩, ⟨2, 0⟩] = some 85 ∧
    processStateChanges 85 [⟨0, 255⟩, ⟨1, 0⟩, ⟨2, 0⟩] = [⟨0, 0⟩, ⟨1, 1⟩] ∧
    ((processStateChanges 85 [⟨0, 255⟩, ⟨1, 0⟩, ⟨2, 0⟩]).map
      (fun s => s.duration)).sum = 1 ∧
    ((processStateChanges 85 [⟨0, 255⟩, ⟨1, 0⟩, ⟨2, 0⟩]).map
      (fun s => s.duration)).sum ≠ 2 ∧
    ((processStateChanges 85 [⟨0, 255⟩, ⟨1, 0⟩, ⟨2, 0⟩]).map
      (fun s => s.duration)).sum ≠ 3 := by
  have hm : meanLum [⟨0, 255⟩, ⟨1, 0⟩, ⟨2, 0⟩] = some 85 := by
    rw [meanLum_simple [⟨0, 255⟩, ⟨1, 0⟩, ⟨2, 0⟩] (by decide) (by decide)]
    decide
  exact ⟨hm, rfl, rfl, by decide, by decide⟩

/-- C3: the claim asserts that an empty input fails with a typed `NoSamples`
error before the mean-brightness division.  The source has no such error:
on the empty input the histogram count sum is 0 and `calculateHistogram`
divides by it (undefined behaviour, modelled by `meanLum [] = none`); the
pipeline aborts with `none`, not with a typed error. -/
theorem empty_input_unchecked :
    countSumLoop (histArr []) = 0 ∧ meanLum [] = none ∧ pipelineRun [] = none := by
  refine ⟨countSumLoop_histArr_nil, meanLum_nil, ?_⟩
  unfold pipelineRun
  rw [meanLum_nil]
  rfl

/-- C4 counterexample: on the synthetic SOS sample sequence of the claim the
pipeline does not report morse `"... --- ..."` and message `"SOS"`: it
produces no report at all. -/
theorem sos_roundtrip_counterexample :
    ¬ ∃ r : Report, pipelineRun sosSamples = some r ∧
      r.morse = ['.', '.', '.', ' ', '-', '-', '-', ' ', '.', '.', '.'] ∧
      r.message = ['S', 'O', 'S'] := by
  intro h
  obtain ⟨r, hr, hm, hmsg⟩ := h
  have h6 : meanLum sosSamples = some 96 := by
    rw [meanLum_simple sosSamples (by decide) (by decide)]
    decide
  have hn : pipelineRun sosSamples = none := pipelineRun_eq_none sosSamples 96 h6 rfl
  rw [hn] at hr
  exact Option.noConfusion hr

/-- C4 amended: on the synthetic SOS sample sequence the pipeline aborts
before assembling any morse: the mean is 96, segmentation emits a leading
zero-duration OFF signal and drops the trailing 20-frame OFF run, gaussian
smoothing erases the frequency-1 word-gap bucket, so only the two OFF peaks
2 and 6 are found and the unchecked read of a third OFF peak is out of
range (modelled as `none`). -/
theorem sos_input_aborts :
    meanLum sosSamples = some 96 ∧
    ((processStateChanges 96 sosSamples).filter (fun s => s.state == 0)).map
      (fun s => s.duration) = [0, 2, 2, 6, 2, 2, 6, 2, 2] ∧
    glm [0, 2, 2, 6, 2, 2, 6, 2, 2] 3 = some [2, 6] ∧
    offThresholdsOf [2, 6] = none ∧
    pipelineRun sosSamples = none := by
  have h6 : meanLum sosSamples = some 96 := by
    rw [meanLum_simple sosSamples (by decide) (by decide)]
    decide
  exact ⟨h6, rfl, rfl, rfl, pipelineRun_eq_none sosSamples 96 h6 rfl⟩

/-- C5: with the three OFF peaks sorted ascending to `[a, b, c]` and the two
ON peaks sorted ascending to `[u, v]`, the derived thresholds are the
truncating-integer midpoints of adjacent peaks, and distinct ascending OFF
peaks give strictly increasing OFF thresholds. -/
theorem threshold_midpoints (offP onP : List Nat) (a b c u v : Nat) :
    (sortAsc offP = [a, b, c] →
      offThresholdsOf offP = some ((a + b) / 2, (b + c) / 2) ∧
      (a < b → b < c → (a + b) / 2 < (b + c) / 2)) ∧
    (sortAsc onP = [u, v] → onThresholdOf onP = some ((u + v) / 2)) := by
  constructor
  · intro h
    refine ⟨by simp [offThresholdsOf, h, midpoint], ?_⟩
    intro h1 h2
    omega
  · intro h
    simp [onThresholdOf, h, midpoint]

/-- Witness for C5 at the concrete peak lists `[6, 20, 2]` and `[9, 3]`. -/
theorem threshold_midpoints_witness :
    offThresholdsOf [6, 20, 2] = some ((2 + 6) / 2, (6 + 20) / 2) ∧
    (2 + 6) / 2 < (6 + 20) / 2 ∧
    onThresholdOf [9, 3] = some ((3 + 9) / 2) :=
  ⟨((threshold_midpoints [6, 20, 2] [9, 3] 2 6 20 3 9).1 (by decide)).1,
   ((threshold_midpoints [6, 20, 2] [9, 3] 2 6 20 3 9).1 (by decide)).2
     (by decide) (by decide),
   (threshold_midpoints [6, 20, 2] [9, 3] 2 6 20 3 9).2 (by decide)⟩


/-- C6: on every non-empty duration histogram the peak detector returns
exactly the specification-side candidate peaks — index `i - 1` is a
candidate precisely when the sign of the first difference of the smoothed
array changes from non-negative to negative at position `i`, plus the last
index when the scan ends while still rising — sorted descending by smoothed
magnitude and truncated to the first `K`; with fewer than `K` candidates it
returns all of them rather than failing. -/
theorem peak_detector_spec (durs : List Nat) (K : Nat) (h : durs ≠ []) :
    glm durs K =
      some (((sortByMagDesc (specPeaks (smoothList (denseHist durs)))).take K).map
        Prod.fst) ∧
    ∀ res, glm durs K = some res →
      res.length = min K (specPeaks (smoothList (denseHist durs))).length := by
  have h1 : glm durs K =
      some (((sortByMagDesc (specPeaks (smoothList (denseHist durs)))).take K).map
        Prod.fst) := by
    simp [glm, h, turningPoints_eq_specPeaks]
  refine ⟨h1, ?_⟩
  intro res hres
  rw [h1] at hres
  cases hres
  rw [List.length_map, List.length_take, length_sortByMagDesc]

/-- Witness for C6 at the concrete duration multiset `[3, 3, 9]` with
`K = 2`. -/
theorem peak_detector_spec_witness :
    glm [3, 3, 9] 2 =
      some (((sortByMagDesc (specPeaks (smoothList (denseHist [3, 3, 9])))).take 2).map
        Prod.fst) :=
  (peak_detector_spec [3, 3, 9] 2 (by decide)).1



/-- C7: the morse assembler emits nothing for an OFF run below
`offThresholds[0]`, a character separator between the OFF thresholds, a
word separator from `offThresholds[1]` upward, a dot for an ON run below
`onThreshold` and a dash from it upward; a duration exactly equal to a
threshold falls in the higher bucket. -/
theorem assembler_tokens (t0 t1 ton d : Nat) :
    (d < t0 → classify t0 t1 ton ⟨0, d⟩ = []) ∧
    (t0 ≤ d → d < t1 → classify t0 t1 ton ⟨0, d⟩ = [' ']) ∧
    (t0 ≤ t1 → t1 ≤ d → classify t0 t1 ton ⟨0, d⟩ = [' ', '|', ' ']) ∧
    (t0 < t1 → classify t0 t1 ton ⟨0, t0⟩ = [' ']) ∧
    (d < ton → classify t0 t1 ton ⟨1, d⟩ = ['.']) ∧
    (ton ≤ d → classify t0 t1 ton ⟨1, d⟩ = ['-']) := by
  refine ⟨?_, ?_, ?_, ?_, ?_, ?_⟩
  · intro h
    simp [classify, h]
  · intro h1 h2
    have e1 : ¬ d < t0 := by omega
    simp [classify, e1, h2]
  · intro h1 h2
    have e1 : ¬ d < t0 := by omega
    have e2 : ¬ d < t1 := by omega
    simp [classify, e1, e2]
  · intro h
    have e1 : ¬ t0 < t0 := by omega
    simp [classify, e1, h]
  · intro h
    simp [classify, h]
  · intro h
    have e1 : ¬ d < ton := by omega
    simp [classify, e1]

/-- Witness for C7 at the thresholds `t0 = 4, t1 = 13, ton = 6`. -/
theorem assembler_tokens_witness :
    classify 4 13 6 ⟨0, 3⟩ = [] ∧ classify 4 13 6 ⟨0, 4⟩ = [' '] ∧
    classify 4 13 6 ⟨0, 13⟩ = [' ', '|', ' '] ∧
    classify 4 13 6 ⟨1, 5⟩ = ['.'] ∧ classify 4 13 6 ⟨1, 6⟩ = ['-'] :=
  ⟨(assembler_tokens 4 13 6 3).1 (by decide),
   (assembler_tokens 4 13 6 4).2.1 (by decide) (by decide),
   (assembler_tokens 4 13 6 13).2.2.1 (by decide) (by decide),
   (assembler_tokens 4 13 6 5).2.2.2.2.1 (by decide),
   (assembler_tokens 4 13 6 6).2.2.2.2.2 (by decide)⟩




/-- C8 counterexample: on the samples `(0,255), (1,0)` the pipeline mean is
127 and segmentation emits `(OFF, 0)` as its first Signal — a Signal of
duration 0, contradicting the claimed `duration ≥ 1`. -/
theorem segmentation_zero_duration :
    meanLum [⟨0, 255⟩, ⟨1, 0⟩] = some 127 ∧
    processStateChanges 127 [⟨0, 255⟩, ⟨1, 0⟩] = [⟨0, 0⟩, ⟨1, 1⟩] ∧
    ¬ ∀ sig ∈ processStateChanges 127 [⟨0, 255⟩, ⟨1, 0⟩], 1 ≤ sig.duration := by
  have hm : meanLum [⟨0, 255⟩, ⟨1, 0⟩] = some 127 := by
    rw [meanLum_simple [⟨0, 255⟩, ⟨1, 0⟩] (by decide) (by decide)]
    decide
  exact ⟨hm, rfl, by decide⟩

/-- C8 amended: for every mean and every sample sequence, consecutive
Signals emitted by segmentation never share the same state; and when the
sample frame indices are strictly increasing, every Signal after the first
has duration ≥ 1 (the first Signal may have duration 0: it spans from the
virtual start time 0 to the first state change). -/
theorem segmentation_invariants (mean : Nat) (samples : List Frame) :
    List.Chain' (fun a b : Signal => a.state ≠ b.state)
      (processStateChanges mean samples) ∧
    (List.Pairwise (fun a b : Frame => a.time < b.time) samples →
      ∀ sig ∈ (processStateChanges mean samples).tail, 1 ≤ sig.duration) := by
  constructor
  · exact segGo_chain mean samples 0 0
  · intro hp
    exact segGo_tail_pos mean samples 0 0 hp (fun f hf => Nat.zero_le f.time)

/-- Witness for C8's amended invariants at a concrete sample list. -/
theorem segmentation_invariants_witness :
    List.Chain' (fun a b : Signal => a.state ≠ b.state)
      (processStateChanges 85 [⟨0, 255⟩, ⟨1, 0⟩, ⟨2, 0⟩]) ∧
    (1 : Nat) ≤ Signal.duration ⟨1, 1⟩ :=
  ⟨(segmentation_invariants 85 [⟨0, 255⟩, ⟨1, 0⟩, ⟨2, 0⟩]).1,
   (segmentation_invariants 85 [⟨0, 255⟩, ⟨1, 0⟩, ⟨2, 0⟩]).2 (by decide)
     ⟨1, 1⟩ (by decide)⟩



/-- C9: for every non-empty sample sequence with brightness values in
`[0, 255]`, the computed mean equals the sum of `value * count` over the
256 brightness buckets divided by the sample count, with truncating `Nat`
division. -/
theorem mean_brightness_formula (samples : List Frame) (hne : samples ≠ [])
    (hb : ∀ f ∈ samples, f.luminance ≤ 255) :
    meanLum samples =
      some (((List.range 256).map
          (fun v => v * (samples.filter (fun f => f.luminance == v)).length)).sum /
        samples.length) :=
  meanLum_formula samples hne hb

theorem mean_brightness_formula_witness :
    meanLum [⟨0, 10⟩, ⟨1, 20⟩] =
      some (((List.range 256).map
          (fun v => v * (([⟨0, 10⟩, ⟨1, 20⟩] : List Frame).filter
            (fun f => f.luminance == v)).length)).sum /
        ([⟨0, 10⟩, ⟨1, 20⟩] : List Frame).length) :=
  mean_brightness_formula [⟨0, 10⟩, ⟨1, 20⟩] (by decide) (by decide)



/-- C10: every `replace_all` call `decodeMorse` makes performs only
finitely many single replacements: for each morse-table entry the
replacement strictly decreases the number of dots and dashes, the
space-stripping pass strictly decreases the length, and the bar pass
strictly decreases the number of bars, so each pass reaches a fixpoint
(no further occurrence of the search pattern) within the fuel
`s.length + 1` that the embedding `replaceAll` allots. -/
theorem decode_replace_terminates (s : List Char) :
    (∀ m ∈ morseSymbols,
      replaceOnce (symPat m) (symRep m) (replaceAll (symPat m) (symRep m) s) = none) ∧
    replaceOnce [' '] [] (replaceAll [' '] [] s) = none ∧
    replaceOnce ['|'] [' '] (replaceAll ['|'] [' '] s) = none := by
  refine ⟨?_, ?_, ?_⟩
  · intro m hm
    have hdec := morse_entry_decreasing m hm
    have hb : wsum wDD s ≤ s.length + 1 := by
      have := wsum_le_length wDD (fun c => by unfold wDD; split_ifs <;> omega) s
      omega
    simp only [replaceAll]
    exact replace_fix wDD (symPat m) (symRep m) hdec (s.length + 1) s hb
  · have hb : wsum (fun _ => 1) s ≤ s.length + 1 := by
      have := wsum_le_length (fun _ => 1) (fun c => le_refl 1) s
      omega
    simp only [replaceAll]
    exact replace_fix (fun _ => 1) [' '] [] (by simp [wsum]) (s.length + 1) s hb
  · have hb : wsum wBar s ≤ s.length + 1 := by
      have := wsum_le_length wBar (fun c => by unfold wBar; split_ifs <;> omega) s
      omega
    simp only [replaceAll]
    exact replace_fix wBar ['|'] [' '] (by decide) (s.length + 1) s hb

/-- Witness for C10: the `replace_all` pass for the `S` table entry on the
token stream `"... --- ..."` reaches its fixpoint. -/
theorem decode_replace_terminates_witness :
    replaceOnce (symPat (['.', '.', '.'], ['S'])) (symRep (['.', '.', '.'], ['S']))
      (replaceAll (symPat (['.', '.', '.'], ['S'])) (symRep (['.', '.', '.'], ['S']))
        ['.', '.', '.', ' ', '-', '-', '-', ' ', '.', '.', '.']) = none :=
  (decode_replace_terminates
      ['.', '.', '.', ' ', '-', '-', '-', ' ', '.', '.', '.']).1
    (['.', '.', '.'], ['S']) (by decide)


end VMD
